import Mathlib

/-!
Shallow embedding of the terminal canvas and character-compositing engine
of the terminaltexteffects repository (engine/terminal.py), together with
theorems settling the frozen claims about it.

Coordinates are integers (1-indexed, rows increasing upward).  Python
machine integers are unbounded, so Int is the faithful carrier.  Random
choices made by the source (random.randint, random.choice, random.shuffle)
are modelled as explicit parameters ranging over the same sets the source
draws from.
-/

/-- Modelled from the spec: the Coord type of utils/geometry.py is not under
src/.  The spec describes it as an immutable pair (column, row), 1-indexed,
row increasing upward, with equality and hash by value. -/
structure Coord where
  column : Int
  row : Int
deriving DecidableEq, Repr

/-- Canvas bounds rectangle, from the Canvas dataclass of engine/terminal.py:
fields top, right, bottom (default 1), left (default 1). -/
structure Canvas where
  top : Int
  right : Int
  bottom : Int := 1
  left : Int := 1
deriving DecidableEq, Repr

namespace Canvas

/-- Derived center row computed by Canvas post-init: max(top // 2, 1).
Python floor division is Int.fdiv. -/
def center_row (c : Canvas) : Int := max (Int.fdiv c.top 2) 1

/-- Derived center column computed by Canvas post-init: max(right // 2, 1). -/
def center_column (c : Canvas) : Int := max (Int.fdiv c.right 2) 1

/-- Derived center coordinate computed by Canvas post-init. -/
def center (c : Canvas) : Coord := ⟨c.center_column, c.center_row⟩

/-- Containment test of Canvas.coord_is_in_canvas:
left <= column <= right and bottom <= row <= top. -/
def coord_is_in_canvas (c : Canvas) (coord : Coord) : Bool :=
  decide (c.left ≤ coord.column) && decide (coord.column ≤ c.right) &&
  decide (c.bottom ≤ coord.row) && decide (coord.row ≤ c.top)

/-- The four bands from which Canvas.random_coord with outside_scope=True
draws: one row above the top, one row below (row -1), one column to the
left (column -1), one column to the right. -/
inductive OutsideBand
  | above
  | below
  | leftBand
  | rightBand
deriving DecidableEq, Repr

/-- Canvas.random_coord with outside_scope=True.  The source draws
col uniformly from [1, right] via random_column, row uniformly from
[1, top] via random_row, and the band via random.choice; here the three
random draws are explicit parameters. -/
def random_coord_outside (c : Canvas) (band : OutsideBand) (col row : Int) : Coord :=
  match band with
  | .above => ⟨col, c.top + 1⟩
  | .below => ⟨col, -1⟩
  | .leftBand => ⟨-1, row⟩
  | .rightBand => ⟨c.right + 1, row⟩

end Canvas

/-- Modelled from the spec: EffectCharacter of engine/base_character.py is
not under src/.  The spec gives it a stable integer identity assigned at
creation, a display symbol, a fixed input coordinate (the home position),
a mutable current coordinate driven by animation, a layer number
(default 0) and a visibility flag. -/
structure EffectCharacter where
  character_id : Nat
  symbol : Char
  input_coord : Coord
  current_coord : Coord
  layer : Int
  is_visible : Bool
deriving DecidableEq, Repr

/-- Modelled from the spec: the EffectCharacter constructor takes an id, a
symbol and the input column and row; the current coordinate starts at the
home position, the layer at 0, visibility off. -/
def mkCharacter (id : Nat) (symbol : Char) (column row : Int) : EffectCharacter :=
  { character_id := id, symbol := symbol, input_coord := ⟨column, row⟩,
    current_coord := ⟨column, row⟩, layer := 0, is_visible := false }

/-- Python range(a, b+1) over integers: the list a, a+1, ..., b. -/
def intRange (a b : Int) : List Int :=
  (List.range (b + 1 - a).toNat).map (fun (i : Nat) => a + (i : Int))

theorem mem_intRange {a b x : Int} : x ∈ intRange a b ↔ a ≤ x ∧ x ≤ b := by
  unfold intRange
  constructor
  · intro h
    obtain ⟨i, hi, rfl⟩ := List.mem_map.mp h
    have hi2 := List.mem_range.mp hi
    have hi3 : (i : Int) < b + 1 - a := Int.lt_toNat.mp hi2
    omega
  · rintro ⟨h1, h2⟩
    refine List.mem_map.mpr ⟨(x - a).toNat, List.mem_range.mpr ?_, ?_⟩
    · omega
    · omega

theorem nodup_intRange (a b : Int) : (intRange a b).Nodup := by
  unfold intRange
  exact (List.nodup_range _).map (fun i j h => by omega)

/-- Python max over a nonempty list (the source calls max on list
comprehensions that it relies on being nonempty; on an empty list the
source raises, which terminalMake models by returning none before this
function is ever applied to an empty list). -/
def maxIntList : List Int → Int
  | [] => 0
  | x :: xs => xs.foldl max x

/-- Tab expansion performed by Terminal init:
input_data.replace with tab_width spaces for each tab. -/
def expandTabs (tab_width : Nat) (s : List Char) : List Char :=
  s.flatMap (fun ch => if ch = '\t' then List.replicate tab_width ' ' else [ch])

/-- Split a character list at each newline, keeping empty pieces. -/
def splitOnNewline : List Char → List (List Char)
  | [] => [[]]
  | c :: rest =>
    if c = '\n' then [] :: splitOnNewline rest
    else
      match splitOnNewline rest with
      | [] => [[c]]
      | l :: ls => (c :: l) :: ls

/-- Python str.splitlines restricted to newline separators (the input the
engine processes uses newline line breaks): an empty string gives no
lines, and a trailing newline does not produce a final empty line. -/
def splitlines (s : List Char) : List (List Char) :=
  if s.isEmpty then []
  else if s.getLast? = some '\n' then (splitOnNewline s).dropLast
  else splitOnNewline s

/-- One line of Terminal wrap_lines: while the line is longer than the
width, emit the first width characters and keep going on the rest.  The
source loops forever when the width is zero and the line nonempty; the
guard requiring a positive width makes the model total, and the engine
only calls this with the resolved positive width. -/
def wrapLine (width : Nat) (line : List Char) : List (List Char) :=
  if h : 0 < width ∧ width < line.length then
    line.take width :: wrapLine width (line.drop width)
  else [line]
termination_by line.length
decreasing_by simp only [List.length_drop]; omega

/-- Terminal wrap_lines: wrap each line in order and concatenate. -/
def wrapLines (width : Nat) (lines : List (List Char)) : List (List Char) :=
  lines.flatMap (wrapLine width)

/-- Python str.strip() is empty exactly when every character is whitespace. -/
def isBlank (s : List Char) : Bool :=
  s.all (fun c => c = ' ' || c = '\t' || c = '\n' || c = '\r')

/-- The placeholder substituted for empty or blank input. -/
def noInputData : List Char := "No Input.".toList

/-- The inner loop of Terminal decompose_input over one line: each
non-space symbol at zero-based column c becomes a character at
coordinate (c + 1, rowCoord) with the next id; spaces are skipped.
Returns the characters created and the next unused id. -/
def decompose_line (nid : Nat) (rowCoord : Int) (col : Nat) :
    List Char → List EffectCharacter × Nat
  | [] => ([], nid)
  | c :: rest =>
    if c = ' ' then decompose_line nid rowCoord (col + 1) rest
    else
      let r := decompose_line (nid + 1) rowCoord (col + 1) rest
      (mkCharacter nid c ((col : Int) + 1) rowCoord :: r.1, r.2)

/-- The outer loop of Terminal decompose_input: line at zero-based index
row gets row coordinate input_height - row (so row 1 is the bottom line). -/
def decompose_lines (nid : Nat) (input_height : Int) (rowIdx : Nat) :
    List (List Char) → List EffectCharacter × Nat
  | [] => ([], nid)
  | l :: ls =>
    let r := decompose_line nid (input_height - (rowIdx : Int)) 0 l
    let r2 := decompose_lines r.2 input_height (rowIdx + 1) ls
    (r.1 ++ r2.1, r2.2)

/-- Terminal decompose_input: blank input is replaced by the placeholder,
the data is split into lines, lines are wrapped (wrap on) or truncated to
the width (wrap off), and each non-space glyph becomes a character. -/
def decompose_input (wrap : Bool) (width : Nat) (data : List Char) :
    List EffectCharacter × Nat :=
  let data := if isBlank data then noInputData else data
  let lines := splitlines data
  let formatted := if wrap then wrapLines width lines else lines.map (fun l => l.take width)
  decompose_lines 0 (formatted.length : Int) 0 formatted

/-- The coordinate-to-character dictionary, modelled as an insertion-ordered
association list mirroring a Python dict over Coord keys. -/
def dictLookup (m : List (Coord × EffectCharacter)) (k : Coord) : Option EffectCharacter :=
  (m.find? (fun p => p.1 = k)).map (fun p => p.2)

/-- Python dict assignment: overwrite in place when the key is present,
append otherwise. -/
def dictAssign (m : List (Coord × EffectCharacter)) (k : Coord) (v : EffectCharacter) :
    List (Coord × EffectCharacter) :=
  if (m.find? (fun p => p.1 = k)).isSome then
    m.map (fun p => if p.1 = k then (k, v) else p)
  else m ++ [(k, v)]

/-- The registry state of a Terminal after construction, holding the fields
of engine/terminal.py used by the claims. -/
structure Terminal where
  canvas : Canvas
  input_characters : List EffectCharacter
  fill_characters : List EffectCharacter
  added_characters : List EffectCharacter
  character_by_input_coord : List (Coord × EffectCharacter)
  next_character_id : Nat
  visible_characters : List EffectCharacter
deriving DecidableEq, Repr

/-- The cells make_fill_characters visits: rows 1..top (outer loop) and
columns 1..right (inner loop). -/
def canvasCells (canvas : Canvas) : List Coord :=
  (intRange 1 canvas.top).flatMap
    (fun r => (intRange 1 canvas.right).map (fun c => (⟨c, r⟩ : Coord)))

/-- One loop step of make_fill_characters on the state (dictionary, fill
characters so far, next id): a coordinate already present is skipped,
otherwise a space-symbol character with the next id is appended to both
the dictionary and the fill list. -/
def fillStep (s : List (Coord × EffectCharacter) × List EffectCharacter × Nat)
    (coord : Coord) : List (Coord × EffectCharacter) × List EffectCharacter × Nat :=
  if (dictLookup s.1 coord).isSome then s
  else
    (s.1 ++ [(coord, mkCharacter s.2.2 ' ' coord.column coord.row)],
     s.2.1 ++ [mkCharacter s.2.2 ' ' coord.column coord.row], s.2.2 + 1)

/-- Terminal make_fill_characters as the fold of fillStep over the canvas
cells in row-major order. -/
def make_fill_characters (canvas : Canvas) (m0 : List (Coord × EffectCharacter)) (nid0 : Nat) :
    List (Coord × EffectCharacter) × List EffectCharacter × Nat :=
  (canvasCells canvas).foldl fillStep (m0, [], nid0)

/-- The input data Terminal init works with: empty input replaced by the
placeholder, then tabs expanded. -/
def terminal_input_data (input : List Char) (tab_width : Nat) : List Char :=
  expandTabs tab_width (if input.isEmpty then noInputData else input)

/-- The decomposed input characters and next id of Terminal init. -/
def terminal_decomposed (input : List Char) (tab_width width : Nat) (wrap : Bool) :
    List EffectCharacter × Nat :=
  decompose_input wrap width (terminal_input_data input tab_width)

/-- The canvas Terminal init builds: top is the resolved height (clamped to
at least 1) capped by the input bounding-box height, right is the input
bounding-box width; bottom and left keep the Canvas defaults of 1. -/
def terminal_canvas (input : List Char) (tab_width width height : Nat) (wrap : Bool) : Canvas :=
  let inputChars := (terminal_decomposed input tab_width width wrap).1
  { top := min (max (height : Int) 1)
              (maxIntList (inputChars.map (fun ch => ch.input_coord.row))),
    right := maxIntList (inputChars.map (fun ch => ch.input_coord.column)) }

/-- The input characters Terminal init retains: those whose row is at most
the canvas top and whose column is at most the canvas right. -/
def terminal_kept (input : List Char) (tab_width width height : Nat) (wrap : Bool) :
    List EffectCharacter :=
  let canvas := terminal_canvas input tab_width width height wrap
  (terminal_decomposed input tab_width width wrap).1.filter
    (fun ch => decide (ch.input_coord.row ≤ canvas.top) &&
               decide (ch.input_coord.column ≤ canvas.right))

/-- The coordinate dictionary built from the retained input characters
(a Python dict comprehension keyed by input coordinate). -/
def terminal_input_map (input : List Char) (tab_width width height : Nat) (wrap : Bool) :
    List (Coord × EffectCharacter) :=
  (terminal_kept input tab_width width height wrap).foldl
    (fun m ch => dictAssign m ch.input_coord ch) []

/-- Terminal init, taking the resolved canvas width and height (the source
resolves them from the config or the detected terminal size before using
them).  Returns none when the decomposed input has no characters, where
the source raises from max applied to an empty list; otherwise sizes the
canvas from the input bounding box, drops input characters outside it,
builds the coordinate dictionary and the fill characters. -/
def terminalMake (input : List Char) (tab_width width height : Nat) (wrap : Bool) :
    Option Terminal :=
  let dec := terminal_decomposed input tab_width width wrap
  if dec.1.isEmpty then none
  else
    let canvas := terminal_canvas input tab_width width height wrap
    let kept := terminal_kept input tab_width width height wrap
    let fillRes := make_fill_characters canvas
      (terminal_input_map input tab_width width height wrap) dec.2
    some { canvas := canvas, input_characters := kept, fill_characters := fillRes.2.1,
           added_characters := [], character_by_input_coord := fillRes.1,
           next_character_id := fillRes.2.2, visible_characters := [] }

/-- Terminal add_character: create a character with the next id at the
given coordinate, append it to added_characters, bump the id counter, and
return it.  The coordinate dictionary is not touched. -/
def Terminal.add_character (t : Terminal) (symbol : Char) (coord : Coord) :
    Terminal × EffectCharacter :=
  let character := mkCharacter t.next_character_id symbol coord.column coord.row
  ({ t with added_characters := t.added_characters ++ [character],
            next_character_id := t.next_character_id + 1 }, character)

/-- A sequence of add_character calls, applied in order. -/
def applyAdds (t : Terminal) (ops : List (Char × Coord)) : Terminal :=
  ops.foldl (fun t op => (t.add_character op.1 op.2).1) t

/-- The CharacterSort enum of engine/terminal.py. -/
inductive CharacterSort
  | RANDOM
  | TOP_TO_BOTTOM_LEFT_TO_RIGHT
  | TOP_TO_BOTTOM_RIGHT_TO_LEFT
  | BOTTOM_TO_TOP_LEFT_TO_RIGHT
  | BOTTOM_TO_TOP_RIGHT_TO_LEFT
  | OUTSIDE_ROW_TO_MIDDLE
  | MIDDLE_ROW_TO_OUTSIDE
deriving DecidableEq, Repr

/-- The CharacterGroup enum of engine/terminal.py. -/
inductive CharacterGroup
  | COLUMN_LEFT_TO_RIGHT
  | COLUMN_RIGHT_TO_LEFT
  | ROW_TOP_TO_BOTTOM
  | ROW_BOTTOM_TO_TOP
  | DIAGONAL_TOP_LEFT_TO_BOTTOM_RIGHT
  | DIAGONAL_BOTTOM_LEFT_TO_TOP_RIGHT
  | DIAGONAL_TOP_RIGHT_TO_BOTTOM_LEFT
  | DIAGONAL_BOTTOM_RIGHT_TO_TOP_LEFT
  | CENTER_TO_OUTSIDE_DIAMONDS
  | OUTSIDE_TO_CENTER_DIAMONDS
deriving DecidableEq, Repr

/-- The default sort key of get_characters, key (-row, column): a total
preorder comparing descending row then ascending column. -/
def sortKeyDefaultLE (a b : EffectCharacter) : Bool :=
  decide (b.input_coord.row < a.input_coord.row) ||
  (decide (a.input_coord.row = b.input_coord.row) &&
   decide (a.input_coord.column ≤ b.input_coord.column))

/-- The ascending sort key (row, column) used by get_characters for the
bottom-to-top orders and by get_characters_grouped for its base ordering. -/
def sortKeyAscLE (a b : EffectCharacter) : Bool :=
  decide (a.input_coord.row < b.input_coord.row) ||
  (decide (a.input_coord.row = b.input_coord.row) &&
   decide (a.input_coord.column ≤ b.input_coord.column))

/-- The alternating-pop list comprehension of get_characters for the
OUTSIDE_ROW_TO_MIDDLE sort: when the flag is true pop the front element,
when false pop the back one, flipping the flag each step. -/
def altPop {α : Type} : Bool → List α → List α
  | _, [] => []
  | true, a :: rest => a :: altPop false rest
  | false, a :: rest => (a :: rest).getLast (by simp) :: altPop true (a :: rest).dropLast
termination_by b l => l.length
decreasing_by
  · simp
  · simp

/-- Stable insertion of an element into a sorted list: walk past elements
strictly below x under the total preorder le, so an element equal to x
keeps its original relative position. -/
def orderedInsert {α : Type} (le : α → α → Bool) (x : α) : List α → List α
  | [] => [x]
  | y :: ys => if le y x && !(le x y) then y :: orderedInsert le x ys else x :: y :: ys

/-- A stable sort by the total preorder le.  Python's list.sort is stable,
and a stable sort of a list under a fixed total preorder is unique, so
this insertion sort computes exactly the list the source's sort calls
produce. -/
def stableSort {α : Type} (le : α → α → Bool) : List α → List α
  | [] => []
  | x :: xs => orderedInsert le x (stableSort le xs)

theorem orderedInsert_perm {α : Type} (le : α → α → Bool) (x : α) (l : List α) :
    (orderedInsert le x l).Perm (x :: l) := by
  induction l with
  | nil => exact List.Perm.refl _
  | cons y ys ih =>
    rw [orderedInsert]
    split
    · exact (ih.cons y).trans (List.Perm.swap x y ys)
    · exact List.Perm.refl _

theorem stableSort_perm {α : Type} (le : α → α → Bool) (l : List α) :
    (stableSort le l).Perm l := by
  induction l with
  | nil => exact List.Perm.refl _
  | cons x xs ih => exact (orderedInsert_perm le x _).trans (ih.cons x)

/-- The subset selection shared by get_characters and
get_characters_grouped: input, fill and added characters in that order,
each included when its flag is set. -/
def Terminal.selected_characters (t : Terminal)
    (input_characters fill_chars added_chars : Bool) : List EffectCharacter :=
  (if input_characters then t.input_characters else []) ++
  (if fill_chars then t.fill_characters else []) ++
  (if added_chars then t.added_characters else [])

/-- Terminal.get_characters.  The source shuffles in place for the RANDOM
sort; the shuffle permutation is an explicit parameter here and is used
only by that branch. -/
def Terminal.get_characters (t : Terminal)
    (shuffle : List EffectCharacter → List EffectCharacter)
    (input_characters fill_chars added_chars : Bool) (sort : CharacterSort) :
    List EffectCharacter :=
  let all_characters :=
    stableSort sortKeyDefaultLE (t.selected_characters input_characters fill_chars added_chars)
  match sort with
  | .RANDOM => shuffle all_characters
  | .TOP_TO_BOTTOM_LEFT_TO_RIGHT => all_characters
  | .BOTTOM_TO_TOP_RIGHT_TO_LEFT => all_characters.reverse
  | .BOTTOM_TO_TOP_LEFT_TO_RIGHT => stableSort sortKeyAscLE all_characters
  | .TOP_TO_BOTTOM_RIGHT_TO_LEFT => (stableSort sortKeyAscLE all_characters).reverse
  | .OUTSIDE_ROW_TO_MIDDLE => altPop true all_characters
  | .MIDDLE_ROW_TO_OUTSIDE => (altPop true all_characters).reverse

/-- Manhattan distance used by the diamond groupings. -/
def manhattanDistance (a b : Coord) : Int :=
  |a.column - b.column| + |a.row - b.row|

/-- Terminal.get_characters_grouped, mirroring the source's chain of
membership tests over the grouping argument with the final invalid-argument
branch raising (modelled as Except.error). -/
def Terminal.get_characters_grouped (t : Terminal) (grouping : CharacterGroup)
    (input_characters fill_chars added_chars : Bool) :
    Except String (List (List EffectCharacter)) :=
  let all_characters :=
    stableSort sortKeyAscLE (t.selected_characters input_characters fill_chars added_chars)
  if grouping = .COLUMN_LEFT_TO_RIGHT ∨ grouping = .COLUMN_RIGHT_TO_LEFT then
    let columns := ((intRange 0 t.canvas.right).map
        (fun ci => all_characters.filter (fun ch => ch.input_coord.column = ci))).filter
        (fun l => !l.isEmpty)
    .ok (if grouping = .COLUMN_RIGHT_TO_LEFT then columns.reverse else columns)
  else if grouping = .ROW_BOTTOM_TO_TOP ∨ grouping = .ROW_TOP_TO_BOTTOM then
    let rows := ((intRange 0 t.canvas.top).map
        (fun ri => all_characters.filter (fun ch => ch.input_coord.row = ri))).filter
        (fun l => !l.isEmpty)
    .ok (if grouping = .ROW_TOP_TO_BOTTOM then rows.reverse else rows)
  else if grouping = .DIAGONAL_BOTTOM_LEFT_TO_TOP_RIGHT ∨
          grouping = .DIAGONAL_TOP_RIGHT_TO_BOTTOM_LEFT then
    let diagonals := ((intRange 0 (t.canvas.top + t.canvas.right)).map
        (fun di => all_characters.filter
          (fun ch => ch.input_coord.row + ch.input_coord.column = di))).filter
        (fun l => !l.isEmpty)
    .ok (if grouping = .DIAGONAL_TOP_RIGHT_TO_BOTTOM_LEFT then diagonals.reverse else diagonals)
  else if grouping = .DIAGONAL_TOP_LEFT_TO_BOTTOM_RIGHT ∨
          grouping = .DIAGONAL_BOTTOM_RIGHT_TO_TOP_LEFT then
    let diagonals := ((intRange (t.canvas.left - t.canvas.top)
                               (t.canvas.right - t.canvas.bottom)).map
        (fun di => all_characters.filter
          (fun ch => ch.input_coord.column - ch.input_coord.row = di))).filter
        (fun l => !l.isEmpty)
    .ok (if grouping = .DIAGONAL_BOTTOM_RIGHT_TO_TOP_LEFT then diagonals.reverse else diagonals)
  else if grouping = .CENTER_TO_OUTSIDE_DIAMONDS ∨
          grouping = .OUTSIDE_TO_CENTER_DIAMONDS then
    let distances := (all_characters.map
        (fun ch => manhattanDistance ch.input_coord t.canvas.center)).dedup
    let sortedDistances := stableSort (fun x y => decide (x ≤ y)) distances
    let orderedDistances :=
      if grouping = .OUTSIDE_TO_CENTER_DIAMONDS then sortedDistances.reverse else sortedDistances
    .ok (orderedDistances.map
      (fun d => all_characters.filter
        (fun ch => manhattanDistance ch.input_coord t.canvas.center = d)))
  else
    .error "Invalid sort_order"

/-- Terminal.update_terminal_state: a top-by-right grid of blanks; visible
characters sorted ascending by layer are written at their zero-based
current coordinate when it is in bounds, later (higher-layer) writes
overwriting earlier ones; out-of-bounds characters are skipped. -/
def Terminal.update_terminal_state (t : Terminal) : List (List Char) :=
  let rows0 := List.replicate t.canvas.top.toNat (List.replicate t.canvas.right.toNat ' ')
  (stableSort (fun a b => decide (a.layer ≤ b.layer)) t.visible_characters).foldl
    (fun rows ch =>
      let row := ch.current_coord.row - 1
      let column := ch.current_coord.column - 1
      if 0 ≤ row ∧ row < t.canvas.top ∧ 0 ≤ column ∧ column < t.canvas.right then
        rows.set row.toNat ((rows.getD row.toNat []).set column.toNat ch.symbol)
      else rows)
    rows0

/-- The terminal_state field written by update_terminal_state: each grid
row joined into a string, bottom row first. -/
def Terminal.terminal_state (t : Terminal) : List String :=
  t.update_terminal_state.map (fun row => String.mk row)

/-- Terminal.get_formatted_output_string: refresh the state and join the
row list in reverse order, so the top canvas row is printed first. -/
def Terminal.get_formatted_output_string (t : Terminal) : String :=
  String.intercalate "\n" t.terminal_state.reverse

/-- A trivial terminal used only as the default of Option.getD in the
concrete examples below; every example evaluates to some, so the default
is never reached. -/
def defaultTerminal : Terminal := ⟨⟨1, 1, 1, 1⟩, [], [], [], [], 0, []⟩

/-- The terminal built from the two-line input of the spec's decomposition
example, with resolved dimensions 80 by 24. -/
def exampleTerminalABC : Terminal :=
  (terminalMake "AB\nC".toList 4 80 24 false).getD defaultTerminal

/-- The terminal built from the one-character input used by the grouped
counterexample. -/
def exampleTerminalA : Terminal :=
  (terminalMake "A".toList 4 5 5 false).getD defaultTerminal

/-- C4 counterexample: the Canvas constructed from top = 0, right = 0 with
the default bottom = 1, left = 1 violates the claimed invariant; the
constructor clamps nothing. -/
theorem canvas_C4_counterexample :
    ¬ ((Canvas.mk 0 0 1 1).bottom ≤ (Canvas.mk 0 0 1 1).top ∧
       (Canvas.mk 0 0 1 1).left ≤ (Canvas.mk 0 0 1 1).right) := by decide

/-- C4 amended: Canvas construction stores the four bounds exactly as
given, with no clamping, so degenerate inputs violate top at least bottom;
only the derived center row and center column are clamped to a minimum
of 1. -/
theorem canvas_C4_amended (top right bottom left : Int) :
    (Canvas.mk top right bottom left).top = top ∧
    (Canvas.mk top right bottom left).right = right ∧
    (Canvas.mk top right bottom left).bottom = bottom ∧
    (Canvas.mk top right bottom left).left = left ∧
    1 ≤ (Canvas.mk top right bottom left).center_row ∧
    1 ≤ (Canvas.mk top right bottom left).center_column := by
  refine ⟨rfl, rfl, rfl, rfl, ?_, ?_⟩ <;>
    simp [Canvas.center_row, Canvas.center_column]

/-- C3 counterexample: on a canvas with bottom = -3 the below band of
random_coord with outside_scope=True (row -1, here with column draw 1 and
row draw 1, both in the ranges the source draws from) lands inside the
canvas, so the claim quantified over every canvas is false. -/
theorem canvas_C3_counterexample :
    (Canvas.mk 5 5 (-3) 1).coord_is_in_canvas
      ((Canvas.mk 5 5 (-3) 1).random_coord_outside .below 1 1) = true := by decide

/-- C3 amended: for every canvas whose bottom and left are nonnegative
(which includes every canvas the engine constructs, where both are the
default 1), random_coord with outside_scope=True returns a coordinate
outside the canvas for every band choice and every column and row draw. -/
theorem canvas_C3_amended (c : Canvas) (band : Canvas.OutsideBand) (col row : Int)
    (hb : 0 ≤ c.bottom) (hl : 0 ≤ c.left) :
    c.coord_is_in_canvas (c.random_coord_outside band col row) = false := by
  cases band <;>
    simp [Canvas.coord_is_in_canvas, Canvas.random_coord_outside] <;>
    omega

/-- C3 witness: the amended theorem applied to a concrete canvas with the
default bottom and left. -/
theorem canvas_C3_witness :
    (Canvas.mk 5 5 1 1).coord_is_in_canvas
      ((Canvas.mk 5 5 1 1).random_coord_outside .above 2 3) = false :=
  canvas_C3_amended _ _ _ _ (by decide) (by decide)

/-- C8: the OUTSIDE_ROW_TO_MIDDLE sort of get_characters is the
alternating front and back pop of the base ordering, sending a four
element base ordering a b c d to a d b c, and the MIDDLE_ROW_TO_OUTSIDE
sort is its exact reverse on the same base ordering. -/
theorem sort_C8 :
    (∀ a b c d : EffectCharacter, altPop true [a, b, c, d] = [a, d, b, c]) ∧
    (∀ (t : Terminal) (shuffle : List EffectCharacter → List EffectCharacter) (i f a : Bool),
       t.get_characters shuffle i f a .OUTSIDE_ROW_TO_MIDDLE =
         altPop true (t.get_characters shuffle i f a .TOP_TO_BOTTOM_LEFT_TO_RIGHT)) ∧
    (∀ (t : Terminal) (shuffle : List EffectCharacter → List EffectCharacter) (i f a : Bool),
       t.get_characters shuffle i f a .MIDDLE_ROW_TO_OUTSIDE =
         (t.get_characters shuffle i f a .OUTSIDE_ROW_TO_MIDDLE).reverse) := by
  refine ⟨?_, ?_, ?_⟩
  · intro a b c d
    simp [altPop]
  · intro t s i f a
    rfl
  · intro t s i f a
    rfl

/-- C9: get_characters_grouped returns normally for every value of the
ten-constructor CharacterGroup type; the invalid-argument branch of the
source's dispatch chain, modelled by the Except.error case of the
embedding, is reached exactly by arguments outside those ten values, of
which the enum has none.  The embedding is a pure function of the
terminal, so no registry state is modified. -/
theorem grouped_C9 (t : Terminal) (g : CharacterGroup) (i f a : Bool) :
    ∃ gs, t.get_characters_grouped g i f a = Except.ok gs := by
  cases g <;> simp [Terminal.get_characters_grouped]

/-- C7: with no visible characters the formatted output is canvas.top
lines joined by newlines, each of exactly canvas.right spaces, and the
output joins the internal row list in reverse order so the top canvas row
comes first. -/
theorem compositor_C7 (t : Terminal) (h : t.visible_characters = []) :
    t.get_formatted_output_string =
      String.intercalate "\n" (List.replicate t.canvas.top.toNat
        (String.mk (List.replicate t.canvas.right.toNat ' '))) ∧
    t.get_formatted_output_string = String.intercalate "\n" t.terminal_state.reverse := by
  refine ⟨?_, rfl⟩
  unfold Terminal.get_formatted_output_string Terminal.terminal_state
    Terminal.update_terminal_state
  rw [h]
  simp [stableSort]

theorem decompose_line_spec (line : List Char) :
    ∀ (nid : Nat) (row : Int) (col : Nat),
    (decompose_line nid row col line).1.map (fun ch => (ch.symbol, ch.input_coord)) =
      (line.enumFrom col).filterMap (fun q =>
        if q.2 = ' ' then none
        else some (q.2, (⟨(q.1 : Int) + 1, row⟩ : Coord))) := by
  induction line with
  | nil => intro nid row col; rfl
  | cons c rest ih =>
    intro nid row col
    by_cases hc : c = ' '
    · simp [decompose_line, List.enumFrom, hc, ih]
    · simp [decompose_line, List.enumFrom, hc, ih, mkCharacter]

theorem decompose_lines_spec (ls : List (List Char)) :
    ∀ (nid : Nat) (H : Int) (i : Nat),
    (decompose_lines nid H i ls).1.map (fun ch => (ch.symbol, ch.input_coord)) =
      (ls.enumFrom i).flatMap (fun p =>
        (p.2.enum.filterMap (fun q =>
          if q.2 = ' ' then none
          else some (q.2, (⟨(q.1 : Int) + 1, H - (p.1 : Int)⟩ : Coord))))) := by
  induction ls with
  | nil => intro nid H i; rfl
  | cons l rest ih =>
    intro nid H i
    simp [decompose_lines, List.enumFrom, List.enum, ih, decompose_line_spec]

/-- C6: decomposition creates exactly one character per non-space glyph of
the formatted lines, at column index plus 1 and row equal to the total
line count minus the row index, none for space glyphs; and decomposing
the two-line example input with wrapping off and width at least 2 yields
exactly the three characters A at (1,2), B at (2,2), C at (1,1). -/
theorem decompose_C6 :
    (∀ lines : List (List Char),
       (decompose_lines 0 (lines.length : Int) 0 lines).1.map
           (fun ch => (ch.symbol, ch.input_coord)) =
         lines.enum.flatMap (fun p =>
           (p.2.enum.filterMap (fun q =>
             if q.2 = ' ' then none
             else some (q.2,
               (⟨(q.1 : Int) + 1, (lines.length : Int) - (p.1 : Int)⟩ : Coord)))))) ∧
    (∀ w : Nat, 2 ≤ w →
       (decompose_input false w "AB\nC".toList).1.map
           (fun ch => (ch.symbol, ch.input_coord)) =
         [('A', ⟨1, 2⟩), ('B', ⟨2, 2⟩), ('C', ⟨1, 1⟩)]) := by
  constructor
  · intro lines
    simpa [List.enum] using decompose_lines_spec lines 0 (lines.length : Int) 0
  · intro w hw
    have h1 : (['A', 'B'] : List Char).take w = ['A', 'B'] :=
      List.take_of_length_le (by simp; omega)
    have h2 : (['C'] : List Char).take w = ['C'] :=
      List.take_of_length_le (by simp; omega)
    have hsp : splitlines "AB\nC".toList = [['A', 'B'], ['C']] := rfl
    have hbl : isBlank "AB\nC".toList = false := rfl
    simp only [decompose_input, hbl, hsp, Bool.false_eq_true, if_false, List.map_cons,
      List.map_nil, h1, h2]
    rfl

/-- C6 witness: the concrete part of the theorem applied at width 2. -/
theorem decompose_C6_witness :
    (decompose_input false 2 "AB\nC".toList).1.map
        (fun ch => (ch.symbol, ch.input_coord)) =
      [('A', ⟨1, 2⟩), ('B', ⟨2, 2⟩), ('C', ⟨1, 1⟩)] :=
  decompose_C6.2 2 (by norm_num)

/-- C7 witness: the theorem applied to the concrete freshly built terminal
for the two-line example input, whose visible set is empty. -/
theorem compositor_C7_witness :
    exampleTerminalABC.get_formatted_output_string =
      String.intercalate "\n" (List.replicate exampleTerminalABC.canvas.top.toNat
        (String.mk (List.replicate exampleTerminalABC.canvas.right.toNat ' '))) ∧
    exampleTerminalABC.get_formatted_output_string =
      String.intercalate "\n" exampleTerminalABC.terminal_state.reverse :=
  compositor_C7 exampleTerminalABC rfl

theorem le_foldl_max (xs : List Int) : ∀ a : Int,
    (a ≤ xs.foldl max a) ∧ ∀ x ∈ xs, x ≤ xs.foldl max a := by
  induction xs with
  | nil => intro a; simp
  | cons y ys ih =>
    intro a
    refine ⟨le_trans (le_max_left a y) (ih (max a y)).1, ?_⟩
    intro x hx
    rcases List.mem_cons.mp hx with rfl | hx
    · exact le_trans (le_max_right a x) (ih (max a x)).1
    · exact (ih (max a y)).2 x hx

theorem foldl_max_mem (xs : List Int) : ∀ a : Int,
    xs.foldl max a = a ∨ xs.foldl max a ∈ xs := by
  induction xs with
  | nil => intro a; simp
  | cons y ys ih =>
    intro a
    rcases ih (max a y) with h | h
    · rcases max_choice a y with hm | hm
      · left; simpa [hm] using h
      · right; rw [List.foldl_cons, h, hm]; exact List.mem_cons_self _ _
    · right; exact List.mem_cons_of_mem _ h

theorem le_maxIntList {l : List Int} {x : Int} (hx : x ∈ l) : x ≤ maxIntList l := by
  cases l with
  | nil => cases hx
  | cons y ys =>
    rcases List.mem_cons.mp hx with rfl | hx
    · exact (le_foldl_max ys x).1
    · exact (le_foldl_max ys y).2 x hx

theorem maxIntList_mem {l : List Int} (h : l ≠ []) : maxIntList l ∈ l := by
  cases l with
  | nil => exact absurd rfl h
  | cons y ys =>
    rcases foldl_max_mem ys y with hm | hm
    · rw [maxIntList, hm]; exact List.mem_cons_self _ _
    · exact List.mem_cons_of_mem _ hm

theorem decompose_line_bounds (line : List Char) :
    ∀ (nid : Nat) (row : Int) (col : Nat),
    ∀ ch ∈ (decompose_line nid row col line).1,
      ch.input_coord.row = row ∧ 1 ≤ ch.input_coord.column := by
  induction line with
  | nil => intro nid row col ch hch; cases hch
  | cons c rest ih =>
    intro nid row col ch hch
    by_cases hc : c = ' '
    · rw [decompose_line, if_pos hc] at hch
      exact ih nid row (col + 1) ch hch
    · rw [decompose_line, if_neg hc] at hch
      rcases List.mem_cons.mp hch with rfl | hch
      · refine ⟨rfl, ?_⟩
        show (1 : Int) ≤ (col : Int) + 1
        omega
      · exact ih (nid + 1) row (col + 1) ch hch

theorem decompose_lines_bounds (ls : List (List Char)) :
    ∀ (nid : Nat) (H : Int) (i : Nat),
    ∀ ch ∈ (decompose_lines nid H i ls).1,
      1 ≤ ch.input_coord.column ∧
      H - (i : Int) - (ls.length : Int) < ch.input_coord.row ∧
      ch.input_coord.row ≤ H - (i : Int) := by
  induction ls with
  | nil => intro nid H i ch hch; cases hch
  | cons l rest ih =>
    intro nid H i ch hch
    rw [decompose_lines] at hch
    rcases List.mem_append.mp hch with hch | hch
    · obtain ⟨hrow, hcol⟩ := decompose_line_bounds l nid (H - (i : Int)) 0 ch hch
      refine ⟨hcol, ?_, ?_⟩
      · rw [hrow]
        simp only [List.length_cons]
        push_cast
        omega
      · rw [hrow]
    · obtain ⟨hcol, hlow, hhigh⟩ :=
        ih (decompose_line nid (H - (i : Int)) 0 l).2 H (i + 1) ch hch
      refine ⟨hcol, ?_, ?_⟩
      · simp only [List.length_cons]
        push_cast at hlow ⊢
        omega
      · push_cast at hhigh ⊢
        omega

theorem decompose_input_bounds (wrap : Bool) (w : Nat) (data : List Char) :
    ∀ ch ∈ (decompose_input wrap w data).1,
      1 ≤ ch.input_coord.column ∧ 1 ≤ ch.input_coord.row := by
  intro ch hch
  rw [decompose_input] at hch
  obtain ⟨hcol, hlow, hhigh⟩ := decompose_lines_bounds _ 0 _ 0 ch hch
  refine ⟨hcol, ?_⟩
  omega

theorem terminalMake_eq {input : List Char} {tw w h : Nat} {wrap : Bool} {t : Terminal}
    (ht : terminalMake input tw w h wrap = some t) :
    (terminal_decomposed input tw w wrap).1 ≠ [] ∧
    t = { canvas := terminal_canvas input tw w h wrap,
          input_characters := terminal_kept input tw w h wrap,
          fill_characters := (make_fill_characters (terminal_canvas input tw w h wrap)
            (terminal_input_map input tw w h wrap)
            (terminal_decomposed input tw w wrap).2).2.1,
          added_characters := [],
          character_by_input_coord := (make_fill_characters (terminal_canvas input tw w h wrap)
            (terminal_input_map input tw w h wrap)
            (terminal_decomposed input tw w wrap).2).1,
          next_character_id := (make_fill_characters (terminal_canvas input tw w h wrap)
            (terminal_input_map input tw w h wrap)
            (terminal_decomposed input tw w wrap).2).2.2,
          visible_characters := [] } := by
  by_cases hd : (terminal_decomposed input tw w wrap).1.isEmpty
  · rw [terminalMake] at ht
    rw [if_pos hd] at ht
    cases ht
  · rw [terminalMake] at ht
    rw [if_neg hd] at ht
    refine ⟨by simpa [List.isEmpty_iff] using hd, (Option.some.inj ht).symm⟩

theorem terminal_canvas_bounds {input : List Char} {tw w h : Nat} {wrap : Bool}
    (hd : (terminal_decomposed input tw w wrap).1 ≠ []) :
    1 ≤ (terminal_canvas input tw w h wrap).top ∧
    1 ≤ (terminal_canvas input tw w h wrap).right := by
  have hmapr : ((terminal_decomposed input tw w wrap).1.map
      (fun ch => ch.input_coord.row)) ≠ [] := by
    simpa using hd
  have hmapc : ((terminal_decomposed input tw w wrap).1.map
      (fun ch => ch.input_coord.column)) ≠ [] := by
    simpa using hd
  obtain ⟨chr, hchr, hr⟩ := List.mem_map.mp (maxIntList_mem hmapr)
  obtain ⟨chc, hchc, hc⟩ := List.mem_map.mp (maxIntList_mem hmapc)
  have h1 := (decompose_input_bounds wrap w _ chr hchr).2
  have h2 := (decompose_input_bounds wrap w _ chc hchc).1
  constructor
  · show 1 ≤ min (max (h : Int) 1) _
    rw [hr] at h1
    omega
  · show 1 ≤ maxIntList _
    rw [hc] at h2
    exact h2

/-- C10: every constructed Terminal has canvas bottom = 1, left = 1,
top at least 1 and right at least 1, and consequently the compositor's
zero-based in-bounds test accepts a coordinate exactly when
coord_is_in_canvas holds for it. -/
theorem terminal_C10 (input : List Char) (tw w h : Nat) (wrap : Bool) (t : Terminal)
    (ht : terminalMake input tw w h wrap = some t) :
    t.canvas.bottom = 1 ∧ t.canvas.left = 1 ∧
    1 ≤ t.canvas.top ∧ 1 ≤ t.canvas.right ∧
    ∀ coord : Coord,
      ((0 ≤ coord.row - 1 ∧ coord.row - 1 < t.canvas.top ∧
        0 ≤ coord.column - 1 ∧ coord.column - 1 < t.canvas.right) ↔
       t.canvas.coord_is_in_canvas coord = true) := by
  obtain ⟨hd, rfl⟩ := terminalMake_eq ht
  obtain ⟨htop, hright⟩ := terminal_canvas_bounds (h := h) hd
  have hb : (terminal_canvas input tw w h wrap).bottom = 1 := rfl
  have hl : (terminal_canvas input tw w h wrap).left = 1 := rfl
  refine ⟨hb, hl, htop, hright, ?_⟩
  intro coord
  simp only [Canvas.coord_is_in_canvas, Bool.and_eq_true, decide_eq_true_eq]
  rw [hb, hl]
  constructor
  · rintro ⟨a, b, c, d⟩
    refine ⟨⟨⟨?_, ?_⟩, ?_⟩, ?_⟩ <;> omega
  · rintro ⟨⟨⟨a, b⟩, c⟩, d⟩
    refine ⟨?_, ?_, ?_, ?_⟩ <;> omega

/-- C10 witness: the theorem applied to the concrete two-line example
terminal, with the containment equivalence instantiated at (1, 2). -/
theorem terminal_C10_witness :
    exampleTerminalABC.canvas.bottom = 1 ∧ exampleTerminalABC.canvas.left = 1 ∧
    1 ≤ exampleTerminalABC.canvas.top ∧ 1 ≤ exampleTerminalABC.canvas.right ∧
    ((0 ≤ (2 : Int) - 1 ∧ (2 : Int) - 1 < exampleTerminalABC.canvas.top ∧
      0 ≤ (1 : Int) - 1 ∧ (1 : Int) - 1 < exampleTerminalABC.canvas.right) ↔
     exampleTerminalABC.canvas.coord_is_in_canvas ⟨1, 2⟩ = true) := by
  obtain ⟨h1, h2, h3, h4, h5⟩ :=
    terminal_C10 "AB\nC".toList 4 80 24 false exampleTerminalABC rfl
  exact ⟨h1, h2, h3, h4, h5 ⟨1, 2⟩⟩

theorem maxRows_ge_one {input : List Char} {tw w : Nat} {wrap : Bool}
    (hd : (terminal_decomposed input tw w wrap).1 ≠ []) :
    1 ≤ maxIntList ((terminal_decomposed input tw w wrap).1.map
      (fun ch => ch.input_coord.row)) := by
  have hmap : ((terminal_decomposed input tw w wrap).1.map
      (fun ch => ch.input_coord.row)) ≠ [] := by simpa using hd
  obtain ⟨ch, hch, hr⟩ := List.mem_map.mp (maxIntList_mem hmap)
  have := (decompose_input_bounds wrap w _ ch hch).2
  omega

theorem maxCols_ge_one {input : List Char} {tw w : Nat} {wrap : Bool}
    (hd : (terminal_decomposed input tw w wrap).1 ≠ []) :
    1 ≤ maxIntList ((terminal_decomposed input tw w wrap).1.map
      (fun ch => ch.input_coord.column)) := by
  have hmap : ((terminal_decomposed input tw w wrap).1.map
      (fun ch => ch.input_coord.column)) ≠ [] := by simpa using hd
  obtain ⟨ch, hch, hr⟩ := List.mem_map.mp (maxIntList_mem hmap)
  have := (decompose_input_bounds wrap w _ ch hch).1
  omega

/-- C5: for every constructed Terminal the canvas top is the requested
height combined with the input bounding-box height by min and clamped to
at least 1 (equal to the source's min(max(height,1), bounding_height)
because the bounding height is at least 1), the canvas right is the
maximum decomposed input-character column, the retained input characters
are exactly the decomposed characters whose coordinates lie in the
canvas (out-of-canvas characters are silently dropped, the embedding
being total), and every retained character lies within the canvas. -/
theorem terminal_C5 (input : List Char) (tw w h : Nat) (wrap : Bool) (t : Terminal)
    (ht : terminalMake input tw w h wrap = some t) :
    t.canvas.top = max (min ((h : Nat) : Int)
        (maxIntList ((terminal_decomposed input tw w wrap).1.map
          (fun ch => ch.input_coord.row)))) 1 ∧
    t.canvas.right =
      maxIntList ((terminal_decomposed input tw w wrap).1.map
        (fun ch => ch.input_coord.column)) ∧
    t.input_characters = (terminal_decomposed input tw w wrap).1.filter
      (fun ch => t.canvas.coord_is_in_canvas ch.input_coord) ∧
    ∀ ch ∈ t.input_characters, t.canvas.coord_is_in_canvas ch.input_coord = true := by
  obtain ⟨hd, rfl⟩ := terminalMake_eq ht
  have hR := maxRows_ge_one hd
  have htopeq : (terminal_canvas input tw w h wrap).top =
      min (max (h : Int) 1)
        (maxIntList ((terminal_decomposed input tw w wrap).1.map
          (fun ch => ch.input_coord.row))) := rfl
  have hrighteq : (terminal_canvas input tw w h wrap).right =
      maxIntList ((terminal_decomposed input tw w wrap).1.map
        (fun ch => ch.input_coord.column)) := rfl
  have hb : (terminal_canvas input tw w h wrap).bottom = 1 := rfl
  have hl : (terminal_canvas input tw w h wrap).left = 1 := rfl
  have hkept : terminal_kept input tw w h wrap =
      (terminal_decomposed input tw w wrap).1.filter
        (fun ch => (terminal_canvas input tw w h wrap).coord_is_in_canvas ch.input_coord) := by
    rw [terminal_kept]
    apply List.filter_congr
    intro ch hch
    obtain ⟨hc1, hr1⟩ := decompose_input_bounds wrap w _ ch hch
    rw [Bool.eq_iff_iff]
    simp only [Canvas.coord_is_in_canvas, Bool.and_eq_true, decide_eq_true_eq, hb, hl]
    constructor
    · rintro ⟨a, b⟩
      exact ⟨⟨⟨hc1, b⟩, hr1⟩, a⟩
    · rintro ⟨⟨⟨a, b⟩, c⟩, d⟩
      exact ⟨d, b⟩
  refine ⟨?_, hrighteq, hkept, ?_⟩
  · rw [htopeq]
    omega
  · intro ch hch
    rw [hkept] at hch
    exact (List.mem_filter.mp hch).2

/-- C5 witness: the theorem applied to the concrete two-line example
terminal. -/
theorem terminal_C5_witness :
    exampleTerminalABC.canvas.top =
      max (min ((24 : Nat) : Int)
        (maxIntList ((terminal_decomposed "AB\nC".toList 4 80 false).1.map
          (fun ch => ch.input_coord.row)))) 1 ∧
    exampleTerminalABC.canvas.right =
      maxIntList ((terminal_decomposed "AB\nC".toList 4 80 false).1.map
        (fun ch => ch.input_coord.column)) ∧
    exampleTerminalABC.input_characters =
      (terminal_decomposed "AB\nC".toList 4 80 false).1.filter
        (fun ch => exampleTerminalABC.canvas.coord_is_in_canvas ch.input_coord) := by
  obtain ⟨h1, h2, h3, h4⟩ := terminal_C5 "AB\nC".toList 4 80 24 false exampleTerminalABC rfl
  exact ⟨h1, h2, h3⟩

theorem dictLookup_append_left {m1 m2 : List (Coord × EffectCharacter)} {k : Coord}
    (h : (dictLookup m1 k).isSome) : dictLookup (m1 ++ m2) k = dictLookup m1 k := by
  unfold dictLookup at h ⊢
  rw [List.find?_append]
  cases hf : m1.find? (fun p => p.1 = k) with
  | none => rw [hf] at h; simp at h
  | some p => simp [Option.or]

theorem dictLookup_snoc_self {m : List (Coord × EffectCharacter)} {k : Coord}
    {v : EffectCharacter} (h : dictLookup m k = none) :
    dictLookup (m ++ [(k, v)]) k = some v := by
  unfold dictLookup at h ⊢
  rw [List.find?_append]
  cases hf : m.find? (fun p => p.1 = k) with
  | none => simp [Option.or, List.find?]
  | some p => rw [hf] at h; simp at h

theorem fillStep_lookup_mono {s : List (Coord × EffectCharacter) × List EffectCharacter × Nat}
    {c' : Coord} (c : Coord) (h : (dictLookup s.1 c').isSome) :
    (dictLookup (fillStep s c).1 c').isSome := by
  unfold fillStep
  split
  · exact h
  · show (dictLookup (s.1 ++ [(c, _)]) c').isSome
    rw [dictLookup_append_left h]
    exact h

theorem fillStep_lookup_self (s : List (Coord × EffectCharacter) × List EffectCharacter × Nat)
    (c : Coord) : (dictLookup (fillStep s c).1 c).isSome := by
  unfold fillStep
  split
  · assumption
  · rename_i hn
    rw [Option.not_isSome_iff_eq_none] at hn
    show (dictLookup (s.1 ++ [(c, _)]) c).isSome
    rw [dictLookup_snoc_self hn]
    rfl

theorem foldl_fillStep_lookup_mono (cells : List Coord) :
    ∀ (s : List (Coord × EffectCharacter) × List EffectCharacter × Nat) (c : Coord),
      (dictLookup s.1 c).isSome → (dictLookup (cells.foldl fillStep s).1 c).isSome := by
  induction cells with
  | nil => intro s c h; exact h
  | cons c0 rest ih => intro s c h; exact ih _ _ (fillStep_lookup_mono c0 h)

theorem foldl_fillStep_covers (cells : List Coord) :
    ∀ (s : List (Coord × EffectCharacter) × List EffectCharacter × Nat) (c : Coord),
      c ∈ cells → (dictLookup (cells.foldl fillStep s).1 c).isSome := by
  induction cells with
  | nil => intro s c h; cases h
  | cons c0 rest ih =>
    intro s c h
    rcases List.mem_cons.mp h with rfl | h
    · exact foldl_fillStep_lookup_mono rest _ _ (fillStep_lookup_self s c)
    · exact ih _ _ h

theorem fillStep_entries {S : List EffectCharacter}
    {s : List (Coord × EffectCharacter) × List EffectCharacter × Nat} (c : Coord)
    (h : ∀ p ∈ s.1, p.2 ∈ S ∨ p.2 ∈ s.2.1) :
    ∀ p ∈ (fillStep s c).1, p.2 ∈ S ∨ p.2 ∈ (fillStep s c).2.1 := by
  unfold fillStep
  split
  · exact h
  · intro p hp
    simp only at hp ⊢
    rcases List.mem_append.mp hp with hp | hp
    · rcases h p hp with h1 | h1
      · exact Or.inl h1
      · exact Or.inr (List.mem_append.mpr (Or.inl h1))
    · right
      simp only [List.mem_singleton] at hp
      subst hp
      exact List.mem_append.mpr (Or.inr (List.mem_singleton.mpr rfl))

theorem foldl_fillStep_entries (cells : List Coord) {S : List EffectCharacter} :
    ∀ (s : List (Coord × EffectCharacter) × List EffectCharacter × Nat),
      (∀ p ∈ s.1, p.2 ∈ S ∨ p.2 ∈ s.2.1) →
      ∀ p ∈ (cells.foldl fillStep s).1,
        p.2 ∈ S ∨ p.2 ∈ (cells.foldl fillStep s).2.1 := by
  induction cells with
  | nil => intro s h; exact h
  | cons c0 rest ih => intro s h; exact ih _ (fillStep_entries c0 h)

theorem fillStep_ids {s : List (Coord × EffectCharacter) × List EffectCharacter × Nat}
    (c : Coord) (h : ∀ ch ∈ s.2.1, ch.character_id < s.2.2) :
    (∀ ch ∈ (fillStep s c).2.1, ch.character_id < (fillStep s c).2.2) ∧
    s.2.2 ≤ (fillStep s c).2.2 := by
  unfold fillStep
  split
  · exact ⟨h, le_refl _⟩
  · constructor
    · intro ch hch
      simp only at hch ⊢
      rcases List.mem_append.mp hch with hch | hch
      · exact Nat.lt_succ_of_lt (h ch hch)
      · simp only [List.mem_singleton] at hch
        subst hch
        exact Nat.lt_succ_self _
    · exact Nat.le_succ _

theorem foldl_fillStep_ids (cells : List Coord) :
    ∀ (s : List (Coord × EffectCharacter) × List EffectCharacter × Nat),
      (∀ ch ∈ s.2.1, ch.character_id < s.2.2) →
      (∀ ch ∈ (cells.foldl fillStep s).2.1,
         ch.character_id < (cells.foldl fillStep s).2.2) ∧
      s.2.2 ≤ (cells.foldl fillStep s).2.2 := by
  induction cells with
  | nil => intro s h; exact ⟨h, le_refl _⟩
  | cons c0 rest ih =>
    intro s h
    obtain ⟨h1, h2⟩ := fillStep_ids c0 h
    obtain ⟨h3, h4⟩ := ih _ h1
    exact ⟨h3, le_trans h2 h4⟩

theorem dictAssign_entries {S : List EffectCharacter}
    {m : List (Coord × EffectCharacter)} {k : Coord} {v : EffectCharacter}
    (hm : ∀ p ∈ m, p.2 ∈ S) (hv : v ∈ S) :
    ∀ p ∈ dictAssign m k v, p.2 ∈ S := by
  unfold dictAssign
  split
  · intro p hp
    obtain ⟨q, hq, rfl⟩ := List.mem_map.mp hp
    by_cases hqk : q.1 = k
    · simp [hqk, hv]
    · simp only [hqk, if_false]
      exact hm q hq
  · intro p hp
    rcases List.mem_append.mp hp with hp | hp
    · exact hm p hp
    · simp only [List.mem_singleton] at hp
      subst hp
      exact hv

theorem foldl_dictAssign_entries (l : List EffectCharacter) {S : List EffectCharacter} :
    ∀ (m : List (Coord × EffectCharacter)),
      (∀ p ∈ m, p.2 ∈ S) → (∀ ch ∈ l, ch ∈ S) →
      ∀ p ∈ l.foldl (fun m ch => dictAssign m ch.input_coord ch) m, p.2 ∈ S := by
  induction l with
  | nil => intro m hm _; exact hm
  | cons ch rest ih =>
    intro m hm hl
    exact ih _ (dictAssign_entries hm (hl ch (List.mem_cons_self _ _)))
      (fun x hx => hl x (List.mem_cons_of_mem _ hx))

theorem decompose_line_ids (line : List Char) :
    ∀ (nid : Nat) (row : Int) (col : Nat),
      nid ≤ (decompose_line nid row col line).2 ∧
      ∀ ch ∈ (decompose_line nid row col line).1,
        ch.character_id < (decompose_line nid row col line).2 := by
  induction line with
  | nil => intro nid row col; exact ⟨le_refl _, fun ch hch => by cases hch⟩
  | cons c rest ih =>
    intro nid row col
    by_cases hc : c = ' '
    · rw [decompose_line, if_pos hc]
      exact ih nid row (col + 1)
    · rw [decompose_line, if_neg hc]
      obtain ⟨h1, h2⟩ := ih (nid + 1) row (col + 1)
      refine ⟨le_trans (Nat.le_succ _) h1, ?_⟩
      intro ch hch
      rcases List.mem_cons.mp hch with rfl | hch
      · show nid < (decompose_line (nid + 1) row (col + 1) rest).2
        omega
      · exact h2 ch hch

theorem decompose_lines_ids (ls : List (List Char)) :
    ∀ (nid : Nat) (H : Int) (i : Nat),
      nid ≤ (decompose_lines nid H i ls).2 ∧
      ∀ ch ∈ (decompose_lines nid H i ls).1,
        ch.character_id < (decompose_lines nid H i ls).2 := by
  induction ls with
  | nil => intro nid H i; exact ⟨le_refl _, fun ch hch => by cases hch⟩
  | cons l rest ih =>
    intro nid H i
    rw [decompose_lines]
    obtain ⟨ha1, ha2⟩ := decompose_line_ids l nid (H - (i : Int)) 0
    obtain ⟨hb1, hb2⟩ := ih (decompose_line nid (H - (i : Int)) 0 l).2 H (i + 1)
    refine ⟨le_trans ha1 hb1, ?_⟩
    intro ch hch
    rcases List.mem_append.mp hch with hch | hch
    · exact lt_of_lt_of_le (ha2 ch hch) hb1
    · exact hb2 ch hch

/-- Every character of the registry has an id strictly below the next id
counter. -/
def idsBelow (t : Terminal) : Prop :=
  ∀ ch ∈ t.input_characters ++ t.fill_characters ++ t.added_characters,
    ch.character_id < t.next_character_id

/-- Added characters have pairwise distinct ids, none shared with an input
or fill character. -/
def addedFresh (t : Terminal) : Prop :=
  (t.added_characters.map (fun ch => ch.character_id)).Nodup ∧
  ∀ ch ∈ t.added_characters,
    ch.character_id ∉ (t.input_characters ++ t.fill_characters).map
      (fun ch => ch.character_id)

theorem decompose_input_ids (wrap : Bool) (w : Nat) (data : List Char) :
    ∀ ch ∈ (decompose_input wrap w data).1,
      ch.character_id < (decompose_input wrap w data).2 := by
  unfold decompose_input
  exact (decompose_lines_ids _ 0 _ 0).2

theorem terminalMake_idsBelow {input : List Char} {tw w h : Nat} {wrap : Bool} {t : Terminal}
    (ht : terminalMake input tw w h wrap = some t) : idsBelow t := by
  obtain ⟨hd, rfl⟩ := terminalMake_eq ht
  intro ch hch
  obtain ⟨hfill, hmono⟩ := foldl_fillStep_ids
    (canvasCells (terminal_canvas input tw w h wrap))
    ((terminal_input_map input tw w h wrap), [],
      (terminal_decomposed input tw w wrap).2)
    (fun ch hch => by cases hch)
  simp only [List.append_nil, List.mem_append] at hch
  show ch.character_id < (make_fill_characters _ _ _).2.2
  simp only [make_fill_characters]
  rcases hch with hch | hch
  · simp only [terminal_kept] at hch
    have hmem : ch ∈ (terminal_decomposed input tw w wrap).1 :=
      List.mem_of_mem_filter hch
    have hlt : ch.character_id < (terminal_decomposed input tw w wrap).2 := by
      have := decompose_input_ids wrap w (terminal_input_data input tw) ch
      exact this hmem
    exact lt_of_lt_of_le hlt hmono
  · exact hfill ch hch

theorem mkCharacter_id (id : Nat) (sym : Char) (column row : Int) :
    (mkCharacter id sym column row).character_id = id := rfl

theorem add_character_inv {t : Terminal} (h1 : idsBelow t) (h2 : addedFresh t)
    (sym : Char) (coord : Coord) :
    idsBelow (t.add_character sym coord).1 ∧ addedFresh (t.add_character sym coord).1 := by
  unfold idsBelow addedFresh Terminal.add_character at *
  simp only [List.mem_append, List.map_append, List.map_cons, List.map_nil] at *
  refine ⟨?_, ?_, ?_⟩
  · intro ch hch
    rcases hch with (hch | hch) | (hch | hch)
    · exact Nat.lt_succ_of_lt (h1 ch (Or.inl (Or.inl hch)))
    · exact Nat.lt_succ_of_lt (h1 ch (Or.inl (Or.inr hch)))
    · exact Nat.lt_succ_of_lt (h1 ch (Or.inr hch))
    · simp only [List.mem_singleton] at hch
      subst hch
      exact Nat.lt_succ_self _
  · rw [List.nodup_append]
    refine ⟨h2.1, List.nodup_singleton _, ?_⟩
    intro x hx hx2
    simp only [List.mem_singleton] at hx2
    subst hx2
    obtain ⟨ch, hch, hid⟩ := List.mem_map.mp hx
    have := h1 ch (Or.inr hch)
    rw [mkCharacter_id] at hid
    omega
  · intro ch hch
    rcases hch with hch | hch
    · exact h2.2 ch hch
    · simp only [List.mem_singleton] at hch
      subst hch
      intro hmem
      rcases hmem with hmem | hmem
      · obtain ⟨ch2, hch2, hid⟩ := List.mem_map.mp hmem
        have := h1 ch2 (Or.inl (Or.inl hch2))
        rw [mkCharacter_id] at hid
        omega
      · obtain ⟨ch2, hch2, hid⟩ := List.mem_map.mp hmem
        have := h1 ch2 (Or.inl (Or.inr hch2))
        rw [mkCharacter_id] at hid
        omega

theorem applyAdds_fields (ops : List (Char × Coord)) :
    ∀ t : Terminal,
      (applyAdds t ops).input_characters = t.input_characters ∧
      (applyAdds t ops).fill_characters = t.fill_characters ∧
      (applyAdds t ops).character_by_input_coord = t.character_by_input_coord ∧
      (applyAdds t ops).canvas = t.canvas ∧
      (applyAdds t ops).added_characters.length =
        t.added_characters.length + ops.length := by
  induction ops with
  | nil => intro t; exact ⟨rfl, rfl, rfl, rfl, rfl⟩
  | cons op rest ih =>
    intro t
    obtain ⟨h1, h2, h3, h4, h5⟩ := ih ((t.add_character op.1 op.2).1)
    refine ⟨h1, h2, h3, h4, ?_⟩
    show (applyAdds (t.add_character op.1 op.2).1 rest).added_characters.length = _
    rw [h5]
    simp [Terminal.add_character]
    omega

theorem applyAdds_inv (ops : List (Char × Coord)) :
    ∀ t : Terminal, idsBelow t → addedFresh t →
      idsBelow (applyAdds t ops) ∧ addedFresh (applyAdds t ops) := by
  induction ops with
  | nil => intro t h1 h2; exact ⟨h1, h2⟩
  | cons op rest ih =>
    intro t h1 h2
    obtain ⟨h3, h4⟩ := add_character_inv h1 h2 op.1 op.2
    exact ih _ h3 h4

theorem terminalMake_addedFresh {input : List Char} {tw w h : Nat} {wrap : Bool} {t : Terminal}
    (ht : terminalMake input tw w h wrap = some t) : addedFresh t := by
  obtain ⟨hd, rfl⟩ := terminalMake_eq ht
  exact ⟨List.nodup_nil, fun ch hch => by cases hch⟩

theorem mem_canvasCells {canvas : Canvas} {c : Coord} :
    c ∈ canvasCells canvas ↔
      1 ≤ c.column ∧ c.column ≤ canvas.right ∧ 1 ≤ c.row ∧ c.row ≤ canvas.top := by
  unfold canvasCells
  simp only [List.mem_flatMap, List.mem_map, mem_intRange]
  constructor
  · rintro ⟨r, ⟨hr1, hr2⟩, cc, ⟨hcc1, hcc2⟩, rfl⟩
    exact ⟨hcc1, hcc2, hr1, hr2⟩
  · rintro ⟨h1, h2, h3, h4⟩
    exact ⟨c.row, ⟨h3, h4⟩, c.column, ⟨h1, h2⟩, rfl⟩

/-- C2: after construction the coordinate dictionary maps every cell with
1 <= column <= canvas.right and 1 <= row <= canvas.top to a character
drawn from the input or fill characters, and for every sequence of
add_character calls the dictionary is unchanged, each call appends
exactly one character to added_characters (so the list has one entry per
call), added ids are pairwise distinct, and the character created by any
further call carries an id different from every id already present among
input, fill and added characters. -/
theorem terminal_C2 (input : List Char) (tw w h : Nat) (wrap : Bool) (t : Terminal)
    (ht : terminalMake input tw w h wrap = some t) (ops : List (Char × Coord)) :
    (∀ col row : Int, 1 ≤ col → col ≤ t.canvas.right → 1 ≤ row → row ≤ t.canvas.top →
       ∃ ch, dictLookup t.character_by_input_coord ⟨col, row⟩ = some ch ∧
         (ch ∈ t.input_characters ∨ ch ∈ t.fill_characters)) ∧
    (applyAdds t ops).character_by_input_coord = t.character_by_input_coord ∧
    (applyAdds t ops).added_characters.length = ops.length ∧
    (∀ (sym : Char) (coord : Coord),
       ((applyAdds t ops).add_character sym coord).1.added_characters =
         (applyAdds t ops).added_characters ++
           [((applyAdds t ops).add_character sym coord).2]) ∧
    ((applyAdds t ops).added_characters.map (fun ch => ch.character_id)).Nodup ∧
    (∀ (sym : Char) (coord : Coord),
       ((applyAdds t ops).add_character sym coord).2.character_id ∉
         (((applyAdds t ops).input_characters ++ (applyAdds t ops).fill_characters ++
           (applyAdds t ops).added_characters).map (fun ch => ch.character_id))) := by
  have hids := terminalMake_idsBelow ht
  have hfresh := terminalMake_addedFresh ht
  obtain ⟨hinv1, hinv2⟩ := applyAdds_inv ops t hids hfresh
  obtain ⟨hf1, hf2, hf3, hf4, hf5⟩ := applyAdds_fields ops t
  refine ⟨?_, hf3, ?_, ?_, hinv2.1, ?_⟩
  · -- coverage of the coordinate dictionary
    obtain ⟨hd, rfl⟩ := terminalMake_eq ht
    intro col row hc1 hc2 hr1 hr2
    have hcell : (⟨col, row⟩ : Coord) ∈ canvasCells (terminal_canvas input tw w h wrap) :=
      mem_canvasCells.mpr ⟨hc1, hc2, hr1, hr2⟩
    have hsome := foldl_fillStep_covers (canvasCells (terminal_canvas input tw w h wrap))
      ((terminal_input_map input tw w h wrap), [],
        (terminal_decomposed input tw w wrap).2) _ hcell
    rw [Option.isSome_iff_exists] at hsome
    obtain ⟨ch, hch⟩ := hsome
    have hm0 : ∀ p ∈ terminal_input_map input tw w h wrap,
        p.2 ∈ terminal_kept input tw w h wrap := by
      simp only [terminal_input_map]
      exact foldl_dictAssign_entries _ _ (fun p hp => by cases hp) (fun ch hch => hch)
    have hent := foldl_fillStep_entries (canvasCells (terminal_canvas input tw w h wrap))
      (s := ((terminal_input_map input tw w h wrap), [],
        (terminal_decomposed input tw w wrap).2))
      (S := terminal_kept input tw w h wrap)
      (fun p hp => Or.inl (hm0 p hp))
    refine ⟨ch, ?_, ?_⟩
    · show dictLookup (make_fill_characters _ _ _).1 _ = some ch
      simpa only [make_fill_characters] using hch
    · unfold dictLookup at hch
      obtain ⟨p, hp, hp2⟩ := Option.map_eq_some'.mp hch
      have hpm := List.mem_of_find?_eq_some hp
      rcases hent p hpm with h1 | h1
      · left
        show ch ∈ terminal_kept input tw w h wrap
        rw [← hp2]
        exact h1
      · right
        show ch ∈ (make_fill_characters _ _ _).2.1
        simp only [make_fill_characters]
        rw [← hp2]
        exact h1
  · -- each call appends exactly one character
    rw [hf5]
    obtain ⟨hd, rfl⟩ := terminalMake_eq ht
    simp
  · intro sym coord
    rfl
  · -- fresh ids
    intro sym coord hmem
    obtain ⟨ch2, hch2, hid⟩ := List.mem_map.mp hmem
    have hlt := hinv1 ch2 hch2
    have : ((applyAdds t ops).add_character sym coord).2.character_id =
        (applyAdds t ops).next_character_id := rfl
    omega

/-- C2 witness: the theorem applied to the concrete one-character example
terminal with a single add_character call. -/
theorem terminal_C2_witness :
    (applyAdds exampleTerminalA [('X', ⟨2, 3⟩)]).character_by_input_coord =
      exampleTerminalA.character_by_input_coord ∧
    (applyAdds exampleTerminalA [('X', ⟨2, 3⟩)]).added_characters.length = 1 := by
  obtain ⟨h1, h2, h3, h4, h5, h6⟩ :=
    terminal_C2 "A".toList 4 5 5 false exampleTerminalA rfl [('X', ⟨2, 3⟩)]
  exact ⟨h2, h3⟩

theorem count_filter_key {α : Type} [DecidableEq α] (key : α → Int) (a : α) (i : Int)
    (l : List α) :
    List.count a (l.filter (fun x => key x = i)) =
      if key a = i then List.count a l else 0 := by
  by_cases hk : key a = i
  · rw [if_pos hk]
    exact List.count_filter (by simp [hk])
  · rw [if_neg hk]
    rw [List.count_eq_zero]
    intro hmem
    have := (List.mem_filter.mp hmem).2
    simp only [decide_eq_true_eq] at this
    exact hk this

theorem sum_if_single {idxs : List Int} (hnd : idxs.Nodup) {k : Int} (hk : k ∈ idxs)
    (v : Nat) : (idxs.map (fun i => if k = i then v else 0)).sum = v := by
  induction idxs with
  | nil => cases hk
  | cons i rest ih =>
    obtain ⟨hni, hndr⟩ := List.nodup_cons.mp hnd
    rcases List.mem_cons.mp hk with rfl | hk
    · simp only [List.map_cons, List.sum_cons, if_pos rfl]
      have hz : ∀ x ∈ rest.map (fun i => if k = i then v else 0), x = 0 := by
        intro x hx
        obtain ⟨j, hj, rfl⟩ := List.mem_map.mp hx
        rw [if_neg]
        intro hkj
        exact hni (hkj ▸ hj)
      rw [List.sum_eq_zero hz]
      simp
    · simp only [List.map_cons, List.sum_cons]
      have hki : ¬ k = i := fun hki => hni (hki ▸ hk)
      rw [if_neg hki, ih hndr hk]
      simp

theorem flatten_groups_perm {α : Type} [DecidableEq α] (key : α → Int) (l : List α)
    (idxs : List Int) (hnd : idxs.Nodup) (hall : ∀ x ∈ l, key x ∈ idxs) :
    ((idxs.map (fun i => l.filter (fun x => key x = i))).flatten).Perm l := by
  rw [List.perm_iff_count]
  intro a
  rw [List.count_flatten, List.map_map]
  have hmapeq : (idxs.map (List.count a ∘ fun i => l.filter (fun x => key x = i))) =
      idxs.map (fun i => if key a = i then List.count a l else 0) :=
    List.map_congr_left (fun i _ => count_filter_key key a i l)
  rw [hmapeq]
  by_cases ha : key a ∈ idxs
  · exact sum_if_single hnd ha _
  · have hal : a ∉ l := fun hal => ha (hall a hal)
    rw [List.count_eq_zero.mpr hal]
    apply List.sum_eq_zero
    intro x hx
    obtain ⟨j, hj, rfl⟩ := List.mem_map.mp hx
    simp

theorem flatten_filter_nonempty {α : Type} (L : List (List α)) :
    (L.filter (fun l => !l.isEmpty)).flatten = L.flatten := by
  induction L with
  | nil => rfl
  | cons l rest ih =>
    by_cases hl : l.isEmpty
    · have : l = [] := List.isEmpty_iff.mp hl
      subst this
      simpa using ih
    · simp only [List.filter_cons, hl, Bool.not_false, List.flatten_cons, ih]
      simp [List.flatten_cons, ih]

theorem flatten_reverse_perm {α : Type} (L : List (List α)) :
    (L.reverse).flatten.Perm L.flatten := by
  induction L with
  | nil => exact List.Perm.refl _
  | cons l rest ih =>
    rw [List.reverse_cons, List.flatten_append, List.flatten_cons]
    have h1 : (rest.reverse.flatten ++ [l].flatten).Perm (rest.flatten ++ [l].flatten) :=
      ih.append_right _
    have h2 : rest.flatten ++ [l].flatten = rest.flatten ++ l := by simp
    rw [h2] at h1
    exact h1.trans List.perm_append_comm

set_option maxHeartbeats 2000000 in
/-- C1 amended: for every terminal whose canvas has nonnegative left and
bottom bounds (all engine-built canvases have both equal to 1), every
recognized grouping and every subset selection, if every selected
character's input coordinate lies within the canvas then the
concatenation of the inner lists returned by get_characters_grouped is a
permutation of the requested character set: no duplicates, no omissions.
The original claim also covered added characters placed outside the
canvas; those are omitted by the column, row and diagonal groupings,
whose group indices only range over the canvas, as the counterexample
shows. -/
theorem terminal_C1_amended (t : Terminal) (g : CharacterGroup) (i f a : Bool)
    (hl : 0 ≤ t.canvas.left) (hb : 0 ≤ t.canvas.bottom)
    (hin : ∀ ch ∈ t.selected_characters i f a,
      t.canvas.coord_is_in_canvas ch.input_coord = true) :
    ∀ gs, t.get_characters_grouped g i f a = Except.ok gs →
      gs.flatten.Perm (t.selected_characters i f a) := by
  intro gs hgs
  have hperm : (stableSort sortKeyAscLE (t.selected_characters i f a)).Perm
      (t.selected_characters i f a) := stableSort_perm _ _
  have hin2 : ∀ ch ∈ stableSort sortKeyAscLE (t.selected_characters i f a),
      t.canvas.left ≤ ch.input_coord.column ∧ ch.input_coord.column ≤ t.canvas.right ∧
      t.canvas.bottom ≤ ch.input_coord.row ∧ ch.input_coord.row ≤ t.canvas.top := by
    intro ch hch
    have := hin ch (hperm.mem_iff.mp hch)
    simpa [Canvas.coord_is_in_canvas, and_assoc] using this
  cases g with
  | COLUMN_LEFT_TO_RIGHT =>
    simp only [Terminal.get_characters_grouped] at hgs
    rw [if_pos (by decide), if_neg (by decide)] at hgs
    obtain rfl := Except.ok.inj hgs
    rw [flatten_filter_nonempty]
    refine (flatten_groups_perm (fun ch => ch.input_coord.column) _ _
      (nodup_intRange 0 t.canvas.right) ?_).trans hperm
    intro x hx
    show x.input_coord.column ∈ intRange 0 t.canvas.right
    rw [mem_intRange]
    have := hin2 x hx
    omega
  | COLUMN_RIGHT_TO_LEFT =>
    simp only [Terminal.get_characters_grouped] at hgs
    rw [if_pos (by decide), if_pos (by decide)] at hgs
    obtain rfl := Except.ok.inj hgs
    refine (flatten_reverse_perm _).trans ?_
    rw [flatten_filter_nonempty]
    refine (flatten_groups_perm (fun ch => ch.input_coord.column) _ _
      (nodup_intRange 0 t.canvas.right) ?_).trans hperm
    intro x hx
    show x.input_coord.column ∈ intRange 0 t.canvas.right
    rw [mem_intRange]
    have := hin2 x hx
    omega
  | ROW_BOTTOM_TO_TOP =>
    simp only [Terminal.get_characters_grouped] at hgs
    rw [if_neg (by decide), if_pos (by decide), if_neg (by decide)] at hgs
    obtain rfl := Except.ok.inj hgs
    rw [flatten_filter_nonempty]
    refine (flatten_groups_perm (fun ch => ch.input_coord.row) _ _
      (nodup_intRange 0 t.canvas.top) ?_).trans hperm
    intro x hx
    show x.input_coord.row ∈ intRange 0 t.canvas.top
    rw [mem_intRange]
    have := hin2 x hx
    omega
  | ROW_TOP_TO_BOTTOM =>
    simp only [Terminal.get_characters_grouped] at hgs
    rw [if_neg (by decide), if_pos (by decide), if_pos (by decide)] at hgs
    obtain rfl := Except.ok.inj hgs
    refine (flatten_reverse_perm _).trans ?_
    rw [flatten_filter_nonempty]
    refine (flatten_groups_perm (fun ch => ch.input_coord.row) _ _
      (nodup_intRange 0 t.canvas.top) ?_).trans hperm
    intro x hx
    show x.input_coord.row ∈ intRange 0 t.canvas.top
    rw [mem_intRange]
    have := hin2 x hx
    omega
  | DIAGONAL_BOTTOM_LEFT_TO_TOP_RIGHT =>
    simp only [Terminal.get_characters_grouped] at hgs
    rw [if_neg (by decide), if_neg (by decide), if_pos (by decide), if_neg (by decide)] at hgs
    obtain rfl := Except.ok.inj hgs
    rw [flatten_filter_nonempty]
    refine (flatten_groups_perm (fun ch => ch.input_coord.row + ch.input_coord.column) _ _
      (nodup_intRange 0 (t.canvas.top + t.canvas.right)) ?_).trans hperm
    intro x hx
    show x.input_coord.row + x.input_coord.column ∈ intRange 0 (t.canvas.top + t.canvas.right)
    rw [mem_intRange]
    have := hin2 x hx
    omega
  | DIAGONAL_TOP_RIGHT_TO_BOTTOM_LEFT =>
    simp only [Terminal.get_characters_grouped] at hgs
    rw [if_neg (by decide), if_neg (by decide), if_pos (by decide), if_pos (by decide)] at hgs
    obtain rfl := Except.ok.inj hgs
    refine (flatten_reverse_perm _).trans ?_
    rw [flatten_filter_nonempty]
    refine (flatten_groups_perm (fun ch => ch.input_coord.row + ch.input_coord.column) _ _
      (nodup_intRange 0 (t.canvas.top + t.canvas.right)) ?_).trans hperm
    intro x hx
    show x.input_coord.row + x.input_coord.column ∈ intRange 0 (t.canvas.top + t.canvas.right)
    rw [mem_intRange]
    have := hin2 x hx
    omega
  | DIAGONAL_TOP_LEFT_TO_BOTTOM_RIGHT =>
    simp only [Terminal.get_characters_grouped] at hgs
    rw [if_neg (by decide), if_neg (by decide), if_neg (by decide), if_pos (by decide), if_neg (by decide)] at hgs
    obtain rfl := Except.ok.inj hgs
    rw [flatten_filter_nonempty]
    refine (flatten_groups_perm (fun ch => ch.input_coord.column - ch.input_coord.row) _ _
      (nodup_intRange (t.canvas.left - t.canvas.top) (t.canvas.right - t.canvas.bottom)) ?_).trans hperm
    intro x hx
    show x.input_coord.column - x.input_coord.row ∈ intRange (t.canvas.left - t.canvas.top) (t.canvas.right - t.canvas.bottom)
    rw [mem_intRange]
    have := hin2 x hx
    omega
  | DIAGONAL_BOTTOM_RIGHT_TO_TOP_LEFT =>
    simp only [Terminal.get_characters_grouped] at hgs
    rw [if_neg (by decide), if_neg (by decide), if_neg (by decide), if_pos (by decide), if_pos (by decide)] at hgs
    obtain rfl := Except.ok.inj hgs
    refine (flatten_reverse_perm _).trans ?_
    rw [flatten_filter_nonempty]
    refine (flatten_groups_perm (fun ch => ch.input_coord.column - ch.input_coord.row) _ _
      (nodup_intRange (t.canvas.left - t.canvas.top) (t.canvas.right - t.canvas.bottom)) ?_).trans hperm
    intro x hx
    show x.input_coord.column - x.input_coord.row ∈ intRange (t.canvas.left - t.canvas.top) (t.canvas.right - t.canvas.bottom)
    rw [mem_intRange]
    have := hin2 x hx
    omega
  | CENTER_TO_OUTSIDE_DIAMONDS =>
    simp only [Terminal.get_characters_grouped] at hgs
    rw [if_neg (by decide), if_neg (by decide), if_neg (by decide), if_neg (by decide),
        if_pos (by decide), if_neg (by decide)] at hgs
    obtain rfl := Except.ok.inj hgs
    refine (flatten_groups_perm
      (fun ch => manhattanDistance ch.input_coord t.canvas.center) _ _
      (((stableSort_perm _ _).symm).nodup (List.nodup_dedup _)) ?_).trans hperm
    intro x hx
    exact (stableSort_perm _ _).mem_iff.mpr
      (List.mem_dedup.mpr (List.mem_map_of_mem _ hx))
  | OUTSIDE_TO_CENTER_DIAMONDS =>
    simp only [Terminal.get_characters_grouped] at hgs
    rw [if_neg (by decide), if_neg (by decide), if_neg (by decide), if_neg (by decide),
        if_pos (by decide), if_pos (by decide)] at hgs
    obtain rfl := Except.ok.inj hgs
    refine (flatten_groups_perm
      (fun ch => manhattanDistance ch.input_coord t.canvas.center) _ _
      (List.nodup_reverse.mpr (((stableSort_perm _ _).symm).nodup
        (List.nodup_dedup _))) ?_).trans hperm
    intro x hx
    exact List.mem_reverse.mpr ((stableSort_perm _ _).mem_iff.mpr
      (List.mem_dedup.mpr (List.mem_map_of_mem _ hx)))

/-- C1 counterexample: on the one-character terminal (canvas right = 1), a
character added at column 2 is part of the requested subset (it is in
added_characters) yet absent from the concatenation of the groups that
COLUMN_LEFT_TO_RIGHT returns, because the column indices stop at the
canvas right bound. -/
theorem terminal_C1_counterexample :
    (Terminal.get_characters_grouped
        ((exampleTerminalA.add_character 'X' ⟨2, 1⟩).1) .COLUMN_LEFT_TO_RIGHT
        true false true) =
      Except.ok [[mkCharacter 0 'A' 1 1]] ∧
    (exampleTerminalA.add_character 'X' ⟨2, 1⟩).2 ∈
      ((exampleTerminalA.add_character 'X' ⟨2, 1⟩).1).added_characters ∧
    (exampleTerminalA.add_character 'X' ⟨2, 1⟩).2 ∉
      [[mkCharacter 0 'A' 1 1]].flatten := by
  refine ⟨by rfl, by decide, by decide⟩

/-- C1 witness: the amended theorem applied to the concrete one-character
terminal with input and fill characters requested. -/
theorem terminal_C1_witness :
    (List.flatten [[mkCharacter 0 'A' 1 1]]).Perm
      (exampleTerminalA.selected_characters true true false) :=
  terminal_C1_amended exampleTerminalA .COLUMN_LEFT_TO_RIGHT true true false
    (by decide) (by decide) (by decide) [[mkCharacter 0 'A' 1 1]] rfl
